import Mathlib

/-!
Verification of the netflyx resource cache and UI helpers.

The development embeds the logic of `src/App.tsx` (the `get` / `preferStorage`
persistent cache over `window.localStorage` and `JSON.stringify` / `JSON.parse`)
and the helpers `randomFrom` and `truncate`, and proves the specified
properties of them.

Modelling conventions:
* JavaScript runtime values that can flow through the cache are `JsVal`
  (including `undefined`); JSON numbers are modelled as integers (the claims
  and the source exercise only integral numbers; IEEE doubles are outside the
  embedding).
* `window.localStorage` is an association list from keys to strings,
  `getItem` / `setItem` mirroring the DOM API (`getItem` yields `none` for a
  missing key, i.e. JavaScript `null`).
* Promise results are `Except`: `.error` is a rejected promise, `.ok` a
  resolved one. `preferStorage` returns the resolved/rejected outcome, the
  store after the call, and whether its `getResource` argument was invoked.
* `JSON.stringify` and `JSON.parse` are modelled on the whitespace-free JSON
  fragment (stringify never emits whitespace); `\uXXXX` escapes are modelled
  for unicode scalar values.
-/

namespace Netflyx

/-- JavaScript values that can flow through the cache: `undefined`, `null`,
booleans, (integral) numbers, strings, arrays and plain objects. -/
inductive JsVal where
  | jsUndefined
  | null
  | boolean (b : Bool)
  | num (n : Int)
  | str (s : String)
  | arr (elems : List JsVal)
  | obj (fields : List (String × JsVal))

mutual

/-- A value contains no `undefined` anywhere (such values survive a
stringify/parse round trip unchanged). -/
def noUndefined : JsVal → Bool
  | .jsUndefined => false
  | .null => true
  | .boolean _ => true
  | .num _ => true
  | .str _ => true
  | .arr es => noUndefinedList es
  | .obj fs => noUndefinedFields fs

def noUndefinedList : List JsVal → Bool
  | [] => true
  | e :: es => noUndefined e && noUndefinedList es

def noUndefinedFields : List (String × JsVal) → Bool
  | [] => true
  | (_, v) :: fs => noUndefined v && noUndefinedFields fs

end

mutual

/-- What survives `JSON.stringify` followed by `JSON.parse` in JavaScript:
`undefined` array elements become `null`, object fields whose value is
`undefined` are dropped, everything else is kept. -/
def dropU : JsVal → JsVal
  | .jsUndefined => .null
  | .null => .null
  | .boolean b => .boolean b
  | .num n => .num n
  | .str s => .str s
  | .arr es => .arr (dropUList es)
  | .obj fs => .obj (dropUFields fs)

def dropUList : List JsVal → List JsVal
  | [] => []
  | e :: es => dropU e :: dropUList es

def dropUFields : List (String × JsVal) → List (String × JsVal)
  | [] => []
  | (_, .jsUndefined) :: fs => dropUFields fs
  | (k, v) :: fs => (k, dropU v) :: dropUFields fs

end

/-! ## The text emitted by `JSON.stringify` -/

/-- The decimal digit character for `d < 10`. -/
def decDigitChar (d : Nat) : Char := Char.ofNat (d + 48)

/-- The lowercase hexadecimal digit character for `d < 16`. -/
def hexChar (d : Nat) : Char :=
  if 10 ≤ d then Char.ofNat (d + 87) else Char.ofNat (d + 48)

/-- Decimal digits of `n` pushed in front of `acc`, most significant first. -/
def pushDigits (acc : List Char) (n : Nat) : List Char :=
  if 10 ≤ n then pushDigits (decDigitChar (n % 10) :: acc) (n / 10)
  else decDigitChar n :: acc
termination_by n
decreasing_by omega

/-- Decimal rendering of an integer, as emitted for a JSON number. -/
def intChars (n : Int) : List Char :=
  if n < 0 then '-' :: pushDigits [] n.natAbs else pushDigits [] n.toNat

/-- How `JSON.stringify` renders one character inside a string literal:
quote, backslash and the named control characters get two-character escapes,
the remaining control characters get `\u00XX`, everything else is literal. -/
def escapeChar (c : Char) : List Char :=
  if c = '"' then ['\\', '"']
  else if c = '\\' then ['\\', '\\']
  else if c = '\x08' then ['\\', 'b']
  else if c = '\t' then ['\\', 't']
  else if c = '\n' then ['\\', 'n']
  else if c = '\x0c' then ['\\', 'f']
  else if c = '\r' then ['\\', 'r']
  else if c.toNat < 32 then
    ['\\', 'u', '0', '0', hexChar (c.toNat / 16), hexChar (c.toNat % 16)]
  else [c]

/-- Rendering of the body of a JSON string literal. -/
def escapeChars : List Char → List Char
  | [] => []
  | c :: cs => escapeChar c ++ escapeChars cs

/-- Comma-separated join of rendered items (as `Array.prototype.join`). -/
def commaJoin : List (List Char) → List Char
  | [] => []
  | [x] => x
  | x :: xs => x ++ ',' :: commaJoin xs

mutual

/-- The text `JSON.stringify` emits for a value. `undefined` here renders as
`null`: this equation is only reached for array elements, where JavaScript
emits `null`; object fields with `undefined` values are dropped by
`jTextFields`, and a top-level `undefined` is handled by `JSONstringify`. -/
def jTextVal : JsVal → List Char
  | .jsUndefined => ['n', 'u', 'l', 'l']
  | .null => ['n', 'u', 'l', 'l']
  | .boolean true => ['t', 'r', 'u', 'e']
  | .boolean false => ['f', 'a', 'l', 's', 'e']
  | .num n => intChars n
  | .str s => '"' :: escapeChars s.data ++ ['"']
  | .arr es => '[' :: commaJoin (jTextElems es) ++ [']']
  | .obj fs => '{' :: commaJoin (jTextFields fs) ++ ['}']

/-- Rendered array elements, in order. -/
def jTextElems : List JsVal → List (List Char)
  | [] => []
  | e :: es => jTextVal e :: jTextElems es

/-- Rendered object fields in order, fields with `undefined` values dropped. -/
def jTextFields : List (String × JsVal) → List (List Char)
  | [] => []
  | (_, .jsUndefined) :: fs => jTextFields fs
  | (k, v) :: fs => ('"' :: escapeChars k.data ++ '"' :: ':' :: jTextVal v) :: jTextFields fs

end

/-- Model of `JSON.stringify`: `none` models the JavaScript call returning
`undefined` (which happens exactly when the argument is `undefined`). -/
def JSONstringify (v : JsVal) : Option String :=
  match v with
  | .jsUndefined => none
  | v => some (String.mk (jTextVal v))

/-! ## Model of `JSON.parse` -/

/-- Decimal digit test. -/
def isDigitCh (c : Char) : Bool := 48 ≤ c.toNat && c.toNat ≤ 57

/-- Value of a decimal digit character. -/
def digitVal (c : Char) : Nat := c.toNat - 48

/-- Value of a hexadecimal digit character, if it is one. -/
def hexVal (c : Char) : Option Nat :=
  if 48 ≤ c.toNat && c.toNat ≤ 57 then some (c.toNat - 48)
  else if 97 ≤ c.toNat && c.toNat ≤ 102 then some (c.toNat - 87)
  else if 65 ≤ c.toNat && c.toNat ≤ 70 then some (c.toNat - 55)
  else none

/-- Consume a maximal run of decimal digits, extending the accumulator. -/
def parseDigits : Nat → List Char → Nat × List Char
  | acc, [] => (acc, [])
  | acc, c :: cs =>
    if isDigitCh c then parseDigits (acc * 10 + digitVal c) cs else (acc, c :: cs)

/-- Parse the body of a JSON string literal (after the opening quote), up to
and including the closing quote; returns the decoded characters and the rest
of the input. Unescaped control characters and bad escapes are rejected, as
in `JSON.parse`. -/
def parseStrBody : List Char → Option (List Char × List Char)
  | [] => none
  | c :: cs =>
    if c = '"' then some ([], cs)
    else if c = '\\' then
      match cs with
      | [] => none
      | e :: cs2 =>
        if e = '"' then (parseStrBody cs2).map (fun r => ('"' :: r.1, r.2))
        else if e = '\\' then (parseStrBody cs2).map (fun r => ('\\' :: r.1, r.2))
        else if e = '/' then (parseStrBody cs2).map (fun r => ('/' :: r.1, r.2))
        else if e = 'b' then (parseStrBody cs2).map (fun r => ('\x08' :: r.1, r.2))
        else if e = 'f' then (parseStrBody cs2).map (fun r => ('\x0c' :: r.1, r.2))
        else if e = 'n' then (parseStrBody cs2).map (fun r => ('\n' :: r.1, r.2))
        else if e = 'r' then (parseStrBody cs2).map (fun r => ('\r' :: r.1, r.2))
        else if e = 't' then (parseStrBody cs2).map (fun r => ('\t' :: r.1, r.2))
        else if e = 'u' then
          match cs2 with
          | h1 :: h2 :: h3 :: h4 :: cs3 =>
            match hexVal h1, hexVal h2, hexVal h3, hexVal h4 with
            | some a, some b, some c2, some d =>
              (parseStrBody cs3).map
                (fun r => (Char.ofNat (((a * 16 + b) * 16 + c2) * 16 + d) :: r.1, r.2))
            | _, _, _, _ => none
          | _ => none
        else none
    else if c.toNat < 32 then none
    else (parseStrBody cs).map (fun r => (c :: r.1, r.2))

mutual

/-- Fueled JSON value parser over the whitespace-free fragment: one value is
parsed from the front of the input, the unconsumed rest is returned. -/
def parseVal : Nat → List Char → Option (JsVal × List Char)
  | 0, _ => none
  | _ + 1, [] => none
  | fuel + 1, c :: cs =>
    if c = 'n' then
      match cs with
      | 'u' :: 'l' :: 'l' :: rest => some (.null, rest)
      | _ => none
    else if c = 't' then
      match cs with
      | 'r' :: 'u' :: 'e' :: rest => some (.boolean true, rest)
      | _ => none
    else if c = 'f' then
      match cs with
      | 'a' :: 'l' :: 's' :: 'e' :: rest => some (.boolean false, rest)
      | _ => none
    else if c = '"' then
      (parseStrBody cs).map (fun r => (.str (String.mk r.1), r.2))
    else if c = '-' then
      match cs with
      | [] => none
      | d :: cs2 =>
        if isDigitCh d then
          let r := parseDigits (digitVal d) cs2
          some (.num (-(r.1 : Int)), r.2)
        else none
    else if isDigitCh c then
      let r := parseDigits (digitVal c) cs
      some (.num (r.1 : Int), r.2)
    else if c = '[' then
      match cs with
      | ']' :: rest => some (.arr [], rest)
      | _ => (parseElems fuel cs).map (fun r => (.arr r.1, r.2))
    else if c = '{' then
      match cs with
      | '}' :: rest => some (.obj [], rest)
      | _ => (parseFields fuel cs).map (fun r => (.obj r.1, r.2))
    else none

/-- Parse one or more comma-separated array elements and the closing `]`. -/
def parseElems : Nat → List Char → Option (List JsVal × List Char)
  | 0, _ => none
  | fuel + 1, cs =>
    match parseVal fuel cs with
    | none => none
    | some (v, rest) =>
      match rest with
      | ',' :: rest2 => (parseElems fuel rest2).map (fun r => (v :: r.1, r.2))
      | ']' :: rest2 => some ([v], rest2)
      | _ => none

/-- Parse one or more comma-separated object fields and the closing `}`. -/
def parseFields : Nat → List Char → Option (List (String × JsVal) × List Char)
  | 0, _ => none
  | fuel + 1, cs =>
    match cs with
    | '"' :: cs2 =>
      match parseStrBody cs2 with
      | none => none
      | some (key, rest) =>
        match rest with
        | ':' :: rest2 =>
          match parseVal fuel rest2 with
          | none => none
          | some (v, rest3) =>
            match rest3 with
            | ',' :: rest4 =>
              (parseFields fuel rest4).map (fun r => ((String.mk key, v) :: r.1, r.2))
            | '}' :: rest4 => some ([(String.mk key, v)], rest4)
            | _ => none
        | _ => none
    | _ => none

end

/-- Model of `JSON.parse`: `none` models the call throwing a `SyntaxError`.
The whole input must be consumed by one JSON value. -/
def JSONparse (s : String) : Option JsVal :=
  match parseVal (s.length + 1) s.data with
  | some (v, []) => some v
  | _ => none

/-! ## The `localStorage` model and the cache (`src/App.tsx`) -/

/-- The persistent key-value store backing `window.localStorage`. -/
def Store := List (String × String)

/-- Model of `localStorage.getItem`: the stored string, or `none` for the
JavaScript `null` of a missing key. -/
def getItem : Store → String → Option String
  | [], _ => none
  | (k, v) :: st, key => if k = key then some v else getItem st key

/-- Model of `localStorage.setItem`: update the key in place, or append. -/
def setItem : Store → String → String → Store
  | [], key, value => [(key, value)]
  | (k, v) :: st, key, value =>
    if k = key then (key, value) :: st else (k, v) :: setItem st key value

/-- The ways a `preferStorage` promise can reject: `JSON.parse` threw on the
stored text, or the `getResource` producer rejected. -/
inductive CacheErr where
  | parseError
  | producerError (e : String)

/-- Observable result of one `preferStorage` call: the settled promise, the
store after the call, and whether `getResource` was invoked. -/
structure CacheResult where
  outcome : Except CacheErr JsVal
  store : Store
  invoked : Bool

/-- The string written by `localStorage.setItem(key, JSON.stringify(r))`:
when `JSON.stringify` yields `undefined` (i.e. `r` is `undefined`), the DOM
API coerces it to the string `"undefined"`. -/
def serializeForStore (v : JsVal) : String :=
  match JSONstringify v with
  | some s => s
  | none => "undefined"

/-- Embedding of `preferStorage` from `src/App.tsx` lines 41-50:

    const stored = window.localStorage.getItem(resourceKey);
    if (stored) return JSON.parse(stored);
    const resource = await getResource();
    window.localStorage.setItem(resourceKey, JSON.stringify(resource));
    return resource;

`if (stored)` tests truthiness: both `null` (key missing) and the empty
string take the fetch path, which the `(getItem st key).getD "" = ""` test
mirrors. The producer is a settled promise (`Except`), awaited only on the
fetch path; `invoked` records whether that happened. -/
def preferStorage (st : Store) (resourceKey : String) (getResource : Except String JsVal) :
    CacheResult :=
  let stored := (getItem st resourceKey).getD ""
  if stored ≠ "" then
    match JSONparse stored with
    | some v => ⟨.ok v, st, false⟩
    | none => ⟨.error .parseError, st, false⟩
  else
    match getResource with
    | .error e => ⟨.error (.producerError e), st, true⟩
    | .ok resource => ⟨.ok resource, setItem st resourceKey (serializeForStore resource), true⟩

/-- One network interaction, as seen by the producer that `get` builds:
either `fetch` rejects (transport error), or it resolves with a response
carrying an `ok` flag and the result of `response.json()`. -/
inductive FetchOutcome where
  | transportError (e : String)
  | response (ok : Bool) (body : Except String JsVal)

/-- The producer `get` passes to `preferStorage` (`src/App.tsx` lines 27-35):

    fetch(url).then(response => {
      if (!response.ok) throw Error(...);
      return response.json();
    }).catch(error => { console.error("Failed to fetch:", error); });

The trailing `.catch` swallows every failure (transport error, non-ok
status, unparsable body) after logging, so the resulting promise always
resolves, with `undefined` on the failure paths. -/
def getProducer (net : FetchOutcome) : Except String JsVal :=
  match net with
  | .transportError _ => .ok .jsUndefined
  | .response ok body =>
    if ok then
      match body with
      | .ok v => .ok v
      | .error _ => .ok .jsUndefined
    else .ok .jsUndefined

/-- Embedding of `get` from `src/App.tsx` lines 26-36: `preferStorage` applied
to the url and the fetch-backed producer, given the behavior of the network. -/
def get (st : Store) (url : String) (net : FetchOutcome) : CacheResult :=
  preferStorage st url (getProducer net)

/-! ## Traces of cache calls against one persistent store -/

/-- One step of a lifetime trace: a `get(k, produce)` call, or a process
restart (the page reloads; `localStorage` survives unchanged). -/
inductive Op where
  | call (k : String) (produce : Except String JsVal)
  | restart

/-- The `(outcome, invoked)` pairs of the calls made for key `k` along a
trace, threading the store through every call. -/
def traceFor (k : String) : Store → List Op → List (Except CacheErr JsVal × Bool)
  | _, [] => []
  | st, .restart :: ops => traceFor k st ops
  | st, .call k2 p :: ops =>
    let r := preferStorage st k2 p
    if k2 = k then (r.outcome, r.invoked) :: traceFor k r.store ops
    else traceFor k r.store ops

/-- Number of producer invocations (network fetches) for key `k` in a trace. -/
def fetchCount (k : String) (st : Store) (ops : List Op) : Nat :=
  ((traceFor k st ops).filter (fun e => e.2)).length

/-- After the first entry that invoked the producer and got outcome `out`,
every later entry returns `out` again without invoking the producer. -/
def stableAfterFirst : List (Except CacheErr JsVal × Bool) → Prop
  | [] => True
  | (out, true) :: rest => ∀ e ∈ rest, e = (out, false)
  | (_, false) :: rest => stableAfterFirst rest

/-! ## UI helpers (`src/unnamed/part_000`, `src/unnamed/part_001`) -/

/-- Result of reading a JavaScript array at an index: an element, or the
`null` that `randomFrom` returns for an empty array, or the `undefined` an
out-of-bounds read yields. -/
inductive ArrayRead (α : Type) where
  | elem (a : α)
  | nullV
  | undefV
deriving DecidableEq

/-- The index `Math.floor(Math.random() * array.length - 1)` computed by
`randomFrom`, for a draw `x` of `Math.random()` (modelled over `ℚ`). -/
def randIndex (x : ℚ) (len : Nat) : Int := ⌊x * len - 1⌋

/-- Embedding of `randomFrom` (`src/unnamed/part_000` lines 157-161 and
`src/unnamed/part_001` lines 139-143), with the `Math.random()` draw `x`
made explicit:

    if (array.length === 0) return null;
    const randomIndex = Math.floor(Math.random() * array.length - 1);
    return array[randomIndex];

An in-bounds index yields the element, any other index (JavaScript property
lookup at `-1`) yields `undefined`. -/
def randomFrom {α : Type} (x : ℚ) (array : List α) : ArrayRead α :=
  if array.length = 0 then .nullV
  else
    let i := randIndex x array.length
    if h : 0 ≤ i ∧ i < (array.length : Int) then
      .elem (array.get ⟨i.toNat, by omega⟩)
    else .undefV

/-- Embedding of `truncate` (`src/unnamed/part_000` lines 151-152), over the
characters of the string:

    str?.length > limit ? str?.substr(0, limit - 1) + "..." : str

The limit is modelled as a natural number; `List.take (limit - 1)` agrees
with `substr(0, limit - 1)` also at `limit = 0`, where JavaScript clamps the
negative length to `0` just as truncated subtraction does. -/
def truncate (limit : Nat) (str : List Char) : List Char :=
  if str.length > limit then str.take (limit - 1) ++ ['.', '.', '.'] else str

/-- Ten to the number of decimal digits of `n`. -/
def pow10 (n : Nat) : Nat :=
  if n < 10 then 10 else 10 * pow10 (n / 10)
termination_by n
decreasing_by omega

/-- A maximal digit run stops at a non-digit (or the end of input). -/
def noDigitHead : List Char → Bool
  | [] => true
  | c :: _ => !isDigitCh c

mutual

/-- Fuel sufficient for `parseVal` to read back the text of `v`. -/
def needVal : JsVal → Nat
  | .jsUndefined => 1
  | .null => 1
  | .boolean _ => 1
  | .num _ => 1
  | .str _ => 1
  | .arr es => 1 + needElems es
  | .obj fs => 1 + needFields fs

def needElems : List JsVal → Nat
  | [] => 0
  | e :: es => 1 + max (needVal e) (needElems es)

def needFields : List (String × JsVal) → Nat
  | [] => 0
  | (_, .jsUndefined) :: fs => needFields fs
  | (_, v) :: fs => 1 + max (needVal v) (needFields fs)

end

/-- Key `k` is primed in the store with value `v`: its entry is a non-empty
string that deserializes to `v`. -/
def primed (st : Store) (k : String) (v : JsVal) : Prop :=
  ∃ s, getItem st k = some s ∧ s ≠ "" ∧ JSONparse s = some v

/-! ## Store lemmas -/

theorem getItem_setItem_self (st : Store) (k v : String) :
    getItem (setItem st k v) k = some v := by
  induction st with
  | nil => simp [setItem, getItem]
  | cons hd st ih =>
    obtain ⟨k1, v1⟩ := hd
    by_cases h : k1 = k
    · simp [setItem, h, getItem]
    · simp [setItem, h, getItem, ih]

theorem getItem_setItem_ne (st : Store) (k v k2 : String) (h : k2 ≠ k) :
    getItem (setItem st k v) k2 = getItem st k2 := by
  have hne : ¬(k = k2) := fun hh => h hh.symm
  induction st with
  | nil => simp [setItem, getItem, hne]
  | cons hd st ih =>
    obtain ⟨k1, v1⟩ := hd
    by_cases h1 : k1 = k
    · subst h1
      simp [setItem, getItem, hne]
    · simp [setItem, getItem, h1, ih]

/-- The store after a `preferStorage` call: unchanged, or the single
`setItem` of the successful fetch result under the requested key. -/
theorem preferStorage_store_cases (st : Store) (k : String) (p : Except String JsVal) :
    (preferStorage st k p).store = st ∨
      ∃ r, p = .ok r ∧ (preferStorage st k p).store = setItem st k (serializeForStore r) := by
  unfold preferStorage
  dsimp only
  split
  · split <;> simp
  · match p with
    | .error e => simp
    | .ok r => exact Or.inr ⟨r, rfl, rfl⟩

/-- On a miss (missing key or empty stored string), a rejecting producer is
invoked, the rejection is re-raised and the store is untouched. -/
theorem preferStorage_miss_error (st : Store) (k : String) (e : String)
    (h : (getItem st k).getD "" = "") :
    preferStorage st k (.error e) = ⟨.error (.producerError e), st, true⟩ := by
  unfold preferStorage
  simp [h]

/-- On a miss, a successful producer is invoked, its result is serialized and
written under the key, and the result is returned. -/
theorem preferStorage_miss_ok (st : Store) (k : String) (r : JsVal)
    (h : (getItem st k).getD "" = "") :
    preferStorage st k (.ok r) = ⟨.ok r, setItem st k (serializeForStore r), true⟩ := by
  unfold preferStorage
  simp [h]

/-- Every miss invokes the producer. -/
theorem preferStorage_miss_invoked (st : Store) (k : String) (p : Except String JsVal)
    (h : (getItem st k).getD "" = "") :
    (preferStorage st k p).invoked = true := by
  match p with
  | .error e => rw [preferStorage_miss_error st k e h]
  | .ok r => rw [preferStorage_miss_ok st k r h]

/-! ## Claim theorems: error handling and frame -/

/-- C2: for a key absent from the store, the failure of a failing producer
propagates to the caller, nothing is written under the key (the whole store
is unchanged), and a subsequent call with any second producer invokes it. -/
theorem preferStorage_failure_propagates (st : Store) (k : String) (e : String)
    (p2 : Except String JsVal) (habs : getItem st k = none) :
    preferStorage st k (.error e) = ⟨.error (.producerError e), st, true⟩ ∧
      (preferStorage st k p2).invoked = true := by
  have h : (getItem st k).getD "" = "" := by rw [habs]; rfl
  exact ⟨preferStorage_miss_error st k e h, preferStorage_miss_invoked st k p2 h⟩

/-- Witness for `preferStorage_failure_propagates` at a concrete input. -/
theorem preferStorage_failure_propagates_witness :
    getItem [] "movie:42" = none ∧
      (preferStorage [] "movie:42" (.error "boom") =
          ⟨.error (.producerError "boom"), [], true⟩ ∧
        (preferStorage [] "movie:42" (Except.ok .null)).invoked = true) :=
  ⟨rfl, preferStorage_failure_propagates [] "movie:42" "boom" (Except.ok .null) rfl⟩

/-- C4: for a key absent from the store and a producer succeeding with `r`,
the call invokes the producer, writes the serialization of `r` under the key
and returns `r`. -/
theorem preferStorage_miss_success_writes (st : Store) (k : String) (r : JsVal)
    (habs : getItem st k = none) :
    preferStorage st k (.ok r) = ⟨.ok r, setItem st k (serializeForStore r), true⟩ ∧
      getItem (preferStorage st k (.ok r)).store k = some (serializeForStore r) := by
  have h : (getItem st k).getD "" = "" := by rw [habs]; rfl
  refine ⟨preferStorage_miss_ok st k r h, ?_⟩
  rw [preferStorage_miss_ok st k r h]
  exact getItem_setItem_self st k _

/-- Witness for `preferStorage_miss_success_writes` at a concrete input. -/
theorem preferStorage_miss_success_writes_witness :
    getItem [] "movie:7" = none ∧
      (preferStorage [] "movie:7" (Except.ok (.boolean true)) =
          ⟨.ok (.boolean true), setItem [] "movie:7" (serializeForStore (.boolean true)), true⟩ ∧
        getItem (preferStorage [] "movie:7" (Except.ok (.boolean true))).store "movie:7" =
          some (serializeForStore (.boolean true))) :=
  ⟨rfl, preferStorage_miss_success_writes [] "movie:7" (.boolean true) rfl⟩

/-- C5 (showing the divergence): when the underlying network operation fails
in any of the three specified ways — transport error, non-success status, or
unparsable body — `get` on an unprimed key does NOT propagate a failure; the
`.catch` in its producer swallows the error, the call resolves successfully
with `undefined`, and the string `"undefined"` is even written to the store
under the key. -/
theorem get_swallows_fetch_failure :
    Netflyx.get [] "/trending" (.transportError "network down") =
        ⟨.ok .jsUndefined, [("/trending", "undefined")], true⟩ ∧
      Netflyx.get [] "/trending" (.response false (Except.ok .null)) =
        ⟨.ok .jsUndefined, [("/trending", "undefined")], true⟩ ∧
      Netflyx.get [] "/trending" (.response true (.error "unparsable body")) =
        ⟨.ok .jsUndefined, [("/trending", "undefined")], true⟩ :=
  ⟨rfl, rfl, rfl⟩

/-- C7: a `preferStorage` call leaves the stored value of every other key
unchanged, and never removes any key from the store. -/
theorem preferStorage_frame (st : Store) (k : String) (p : Except String JsVal)
    (k2 : String) (h : k2 ≠ k) :
    getItem (preferStorage st k p).store k2 = getItem st k2 ∧
      ∀ k3, (getItem st k3).isSome = true →
        (getItem (preferStorage st k p).store k3).isSome = true := by
  rcases preferStorage_store_cases st k p with hst | ⟨r, _, hst⟩
  · rw [hst]
    exact ⟨rfl, fun _ h3 => h3⟩
  · rw [hst]
    refine ⟨getItem_setItem_ne st k _ k2 h, fun k3 h3 => ?_⟩
    by_cases hk3 : k3 = k
    · subst hk3
      rw [getItem_setItem_self]
      rfl
    · rw [getItem_setItem_ne st k _ k3 hk3]
      exact h3

/-- Witness for `preferStorage_frame` at a concrete input. -/
theorem preferStorage_frame_witness :
    ("other" ≠ "movie:1" → True) ∧
      (getItem (preferStorage [("other", "null")] "movie:1" (Except.ok .null)).store "other" =
          getItem [("other", "null")] "other" ∧
        ∀ k3, (getItem [("other", "null")] k3).isSome = true →
          (getItem (preferStorage [("other", "null")] "movie:1" (Except.ok .null)).store k3).isSome =
            true) :=
  ⟨fun _ => trivial,
    preferStorage_frame [("other", "null")] "movie:1" (Except.ok .null) "other"
      (by decide)⟩

/-- C8: a key stored with the empty string is treated as absent by the
truthiness test `if (stored)`: the producer is invoked, a successful result
overwrites the empty entry, and the failure of a failing producer propagates. -/
theorem preferStorage_empty_entry_refetches (st : Store) (k : String) (r : JsVal)
    (e : String) (h : getItem st k = some "") :
    preferStorage st k (.ok r) = ⟨.ok r, setItem st k (serializeForStore r), true⟩ ∧
      getItem (preferStorage st k (.ok r)).store k = some (serializeForStore r) ∧
      (preferStorage st k (.error e)).invoked = true := by
  have h0 : (getItem st k).getD "" = "" := by rw [h]; rfl
  refine ⟨preferStorage_miss_ok st k r h0, ?_, preferStorage_miss_invoked st k _ h0⟩
  rw [preferStorage_miss_ok st k r h0]
  exact getItem_setItem_self st k _

/-- Witness for `preferStorage_empty_entry_refetches` at a concrete input. -/
theorem preferStorage_empty_entry_refetches_witness :
    getItem [("k", "")] "k" = some "" ∧
      (preferStorage [("k", "")] "k" (Except.ok .null) =
          ⟨.ok .null, setItem [("k", "")] "k" (serializeForStore .null), true⟩ ∧
        getItem (preferStorage [("k", "")] "k" (Except.ok .null)).store "k" =
          some (serializeForStore .null) ∧
        (preferStorage [("k", "")] "k" (.error "boom")).invoked = true) :=
  ⟨rfl, preferStorage_empty_entry_refetches [("k", "")] "k" .null "boom" rfl⟩

/-! ## Claim theorems: truncate -/

/-- C10 counterexample: at limit `0` and the one-character string `"a"`, the
string is over the limit, yet the result `"..."` has length `3`, not the
claimed `limit + 2 = 2`. -/
theorem truncate_limit_zero_counterexample :
    (['a'] : List Char).length > 0 ∧ truncate 0 ['a'] = ['.', '.', '.'] ∧
      (truncate 0 ['a']).length ≠ 0 + 2 := by
  refine ⟨by decide, by decide, by decide⟩

/-- C10 amended: for every limit `n ≥ 1`, `truncate n str` returns `str`
unchanged when `str` fits, and otherwise the first `n - 1` characters of
`str` followed by `"..."`, a string of length `n + 2`. -/
theorem truncate_spec (limit : Nat) (str : List Char) (h : 1 ≤ limit) :
    (str.length ≤ limit → truncate limit str = str) ∧
      (limit < str.length →
        truncate limit str = str.take (limit - 1) ++ ['.', '.', '.'] ∧
          (truncate limit str).length = limit + 2) := by
  constructor
  · intro hle
    unfold truncate
    rw [if_neg (by omega)]
  · intro hlt
    have heq : truncate limit str = str.take (limit - 1) ++ ['.', '.', '.'] := by
      unfold truncate
      rw [if_pos hlt]
    refine ⟨heq, ?_⟩
    rw [heq, List.length_append, List.length_take]
    simp only [List.length_cons, List.length_nil]
    omega

/-! ## Claim theorems: randomFrom -/

/-- C9: for a non-empty array of length `n` and a draw `x ∈ [0, 1)`, the
index `randomFrom` computes is `⌊x * n - 1⌋`, which lies in `{-1, …, n - 2}`;
the last position `n - 1` is therefore never selected, and at index `-1` the
function returns `undefined`, which is neither an element read nor the
`null` returned for empty arrays. -/
theorem randomFrom_index_bounds {α : Type} (a : List α) (x : ℚ) (hne : a ≠ [])
    (h0 : 0 ≤ x) (h1 : x < 1) :
    (-1 ≤ randIndex x a.length ∧ randIndex x a.length ≤ (a.length : Int) - 2) ∧
      (randIndex x a.length = -1 → randomFrom x a = ArrayRead.undefV) ∧
      (∀ b : α, ArrayRead.undefV ≠ ArrayRead.elem b) ∧
      ArrayRead.undefV ≠ (ArrayRead.nullV : ArrayRead α) := by
  have hn : 1 ≤ a.length := List.length_pos.mpr hne
  have hnq : (1 : ℚ) ≤ (a.length : ℚ) := by exact_mod_cast hn
  have hlow : -1 ≤ randIndex x a.length := by
    unfold randIndex
    rw [Int.le_floor]
    have : (0 : ℚ) ≤ x * (a.length : ℚ) := mul_nonneg h0 (by linarith)
    push_cast
    linarith
  have hhigh : randIndex x a.length ≤ (a.length : Int) - 2 := by
    have : randIndex x a.length < (a.length : Int) - 1 := by
      unfold randIndex
      rw [Int.floor_lt]
      have : x * (a.length : ℚ) < (a.length : ℚ) :=
        mul_lt_of_lt_one_left (by linarith) h1
      push_cast
      linarith
    omega
  refine ⟨⟨hlow, hhigh⟩, ?_,
    ⟨fun b h => ArrayRead.noConfusion h, fun h => ArrayRead.noConfusion h⟩⟩
  intro hidx
  unfold randomFrom
  rw [if_neg (by omega)]
  rw [dif_neg (by rw [hidx]; omega)]

/-- Witness for `randomFrom_index_bounds` at a concrete input. -/
theorem randomFrom_index_bounds_witness :
    ([10, 20] : List Nat) ≠ [] ∧ (0 : ℚ) ≤ 0 ∧ (0 : ℚ) < 1 ∧
      ((-1 ≤ randIndex 0 ([10, 20] : List Nat).length ∧
          randIndex 0 ([10, 20] : List Nat).length ≤ (([10, 20] : List Nat).length : Int) - 2) ∧
        (randIndex 0 ([10, 20] : List Nat).length = -1 →
          randomFrom 0 ([10, 20] : List Nat) = ArrayRead.undefV) ∧
        (∀ b : Nat, ArrayRead.undefV ≠ ArrayRead.elem b) ∧
        ArrayRead.undefV ≠ (ArrayRead.nullV : ArrayRead Nat)) :=
  ⟨by simp, le_refl 0, by norm_num,
    randomFrom_index_bounds [10, 20] 0 (by simp) (le_refl 0) (by norm_num)⟩

/-- Witness for `truncate_spec` at a concrete input. -/
theorem truncate_spec_witness :
    (1 ≤ 5) ∧
      ((['a', 'b'] : List Char).length ≤ 5 → truncate 5 ['a', 'b'] = ['a', 'b']) ∧
      (5 < (['a', 'b'] : List Char).length →
        truncate 5 ['a', 'b'] = (['a', 'b'] : List Char).take 4 ++ ['.', '.', '.'] ∧
          (truncate 5 ['a', 'b']).length = 5 + 2) :=
  ⟨by decide, truncate_spec 5 ['a', 'b'] (by decide)⟩

end Netflyx

namespace Netflyx

/-! ## Character and digit lemmas -/

theorem toNat_ofNat_lt (n : Nat) (h : n < 55296) : (Char.ofNat n).toNat = n := by
  unfold Char.ofNat
  rw [dif_pos (Or.inl h)]
  rfl

theorem decDigitChar_toNat (d : Nat) (h : d < 10) : (decDigitChar d).toNat = d + 48 := by
  unfold decDigitChar
  exact toNat_ofNat_lt _ (by omega)

theorem isDigitCh_decDigitChar (d : Nat) (h : d < 10) :
    isDigitCh (decDigitChar d) = true := by
  unfold isDigitCh
  rw [decDigitChar_toNat d h]
  simp only [Bool.and_eq_true, decide_eq_true_eq]
  omega

theorem digitVal_decDigitChar (d : Nat) (h : d < 10) : digitVal (decDigitChar d) = d := by
  unfold digitVal
  rw [decDigitChar_toNat d h]
  omega

theorem ne_of_isDigitCh (c d : Char) (h : isDigitCh c = true) (hd : isDigitCh d = false) :
    c ≠ d := by
  intro he
  subst he
  rw [h] at hd
  exact Bool.noConfusion hd

theorem hexVal_hexChar (m : Nat) (h : m < 16) : hexVal (hexChar m) = some m := by
  interval_cases m <;> decide

theorem pushDigits_append (n : Nat) :
    ∀ acc, pushDigits acc n = pushDigits [] n ++ acc := by
  induction n using Nat.strong_induction_on with
  | _ n ih =>
    intro acc
    by_cases h : 10 ≤ n
    · conv_lhs => rw [pushDigits]
      conv_rhs => rw [pushDigits]
      rw [if_pos h, if_pos h]
      have hstep := ih (n / 10) (by omega)
      rw [hstep (decDigitChar (n % 10) :: acc),
        hstep (decDigitChar (n % 10) :: [])]
      simp
    · conv_lhs => rw [pushDigits]
      conv_rhs => rw [pushDigits]
      rw [if_neg h, if_neg h]
      rfl

theorem pushDigits_head (n : Nat) :
    ∀ acc, ∃ d rest, pushDigits acc n = d :: rest ∧ isDigitCh d = true := by
  induction n using Nat.strong_induction_on with
  | _ n ih =>
    intro acc
    by_cases h : 10 ≤ n
    · obtain ⟨d, rest, h1, h2⟩ := ih (n / 10) (by omega) (decDigitChar (n % 10) :: acc)
      exact ⟨d, rest, by rw [pushDigits, if_pos h, h1], h2⟩
    · refine ⟨decDigitChar n, acc, by rw [pushDigits, if_neg h], ?_⟩
      exact isDigitCh_decDigitChar n (by omega)



theorem pow10_unfold (n : Nat) : pow10 n = if n < 10 then 10 else 10 * pow10 (n / 10) := by
  rw [pow10]

theorem parseDigits_pushDigits (n : Nat) :
    ∀ acc cs, parseDigits acc (pushDigits [] n ++ cs) =
      parseDigits (acc * pow10 n + n) cs := by
  induction n using Nat.strong_induction_on with
  | _ n ih =>
    intro acc cs
    by_cases h : 10 ≤ n
    · rw [pushDigits, if_pos h, pushDigits_append (n / 10), pow10_unfold,
        if_neg (by omega)]
      rw [List.append_assoc, List.cons_append, List.nil_append]
      rw [ih (n / 10) (by omega) acc (decDigitChar (n % 10) :: cs)]
      simp only [parseDigits, isDigitCh_decDigitChar (n % 10) (by omega), if_true]
      rw [digitVal_decDigitChar (n % 10) (by omega)]
      have hmul : acc * (10 * pow10 (n / 10)) = acc * pow10 (n / 10) * 10 := by ring
      rw [hmul]
      generalize acc * pow10 (n / 10) = A
      congr 1
      omega
    · rw [pushDigits, if_neg h, pow10_unfold, if_pos (by omega)]
      simp only [List.cons_append, List.nil_append, parseDigits,
        isDigitCh_decDigitChar n (by omega), if_true]
      rw [digitVal_decDigitChar n (by omega)]
      rfl


theorem parseDigits_stop (a : Nat) (cs : List Char) (h : noDigitHead cs = true) :
    parseDigits a cs = (a, cs) := by
  match cs with
  | [] => rfl
  | c :: cs2 =>
    simp only [noDigitHead, Bool.not_eq_true'] at h
    simp [parseDigits, h]

theorem parseDigits_run (n : Nat) (cs : List Char) (h : noDigitHead cs = true) :
    parseDigits 0 (pushDigits [] n ++ cs) = (n, cs) := by
  rw [parseDigits_pushDigits n 0 cs, Nat.zero_mul, Nat.zero_add, parseDigits_stop n cs h]


/-! ## Token-level behavior of `parseVal` -/

theorem parseVal_nullTok (f : Nat) (rest : List Char) :
    parseVal (f + 1) ('n' :: 'u' :: 'l' :: 'l' :: rest) = some (.null, rest) := by
  simp [parseVal]

theorem parseVal_trueTok (f : Nat) (rest : List Char) :
    parseVal (f + 1) ('t' :: 'r' :: 'u' :: 'e' :: rest) = some (.boolean true, rest) := by
  simp [parseVal]

theorem parseVal_falseTok (f : Nat) (rest : List Char) :
    parseVal (f + 1) ('f' :: 'a' :: 'l' :: 's' :: 'e' :: rest) = some (.boolean false, rest) := by
  simp [parseVal]

theorem parseVal_strTok (f : Nat) (cs : List Char) :
    parseVal (f + 1) ('"' :: cs) =
      (parseStrBody cs).map (fun r => (.str (String.mk r.1), r.2)) := by
  simp [parseVal]

theorem parseVal_digitTok (f : Nat) (c : Char) (cs : List Char) (h : isDigitCh c = true) :
    parseVal (f + 1) (c :: cs) =
      some (.num ((parseDigits (digitVal c) cs).1 : Int), (parseDigits (digitVal c) cs).2) := by
  have h1 : c ≠ 'n' := ne_of_isDigitCh c 'n' h (by decide)
  have h2 : c ≠ 't' := ne_of_isDigitCh c 't' h (by decide)
  have h3 : c ≠ 'f' := ne_of_isDigitCh c 'f' h (by decide)
  have h4 : c ≠ '"' := ne_of_isDigitCh c '"' h (by decide)
  have h5 : c ≠ '-' := ne_of_isDigitCh c '-' h (by decide)
  simp [parseVal, h1, h2, h3, h4, h5, h]

theorem parseVal_negTok (f : Nat) (d : Char) (cs : List Char) (h : isDigitCh d = true) :
    parseVal (f + 1) ('-' :: d :: cs) =
      some (.num (-((parseDigits (digitVal d) cs).1 : Int)), (parseDigits (digitVal d) cs).2) := by
  simp [parseVal, h]

theorem parseVal_arrNil (f : Nat) (rest : List Char) :
    parseVal (f + 1) ('[' :: ']' :: rest) = some (.arr [], rest) := by
  simp [parseVal, (by decide : isDigitCh '[' = false)]

theorem parseVal_arrCons (f : Nat) (c : Char) (cs : List Char) (h : c ≠ ']') :
    parseVal (f + 1) ('[' :: c :: cs) =
      (parseElems f (c :: cs)).map (fun r => (.arr r.1, r.2)) := by
  simp only [parseVal]
  rw [if_neg (by decide), if_neg (by decide), if_neg (by decide), if_neg (by decide),
    if_neg (by decide), if_neg (by decide), if_pos trivial]
  split
  · rename_i rest heq
    injection heq with h1 h2
    exact absurd h1 h
  · rfl

theorem parseVal_objNil (f : Nat) (rest : List Char) :
    parseVal (f + 1) ('{' :: '}' :: rest) = some (.obj [], rest) := by
  simp [parseVal, (by decide : isDigitCh '{' = false)]

theorem parseVal_objCons (f : Nat) (c : Char) (cs : List Char) (h : c ≠ '}') :
    parseVal (f + 1) ('{' :: c :: cs) =
      (parseFields f (c :: cs)).map (fun r => (.obj r.1, r.2)) := by
  simp only [parseVal]
  rw [if_neg (by decide), if_neg (by decide), if_neg (by decide), if_neg (by decide),
    if_neg (by decide), if_neg (by decide), if_neg (by decide), if_pos trivial]
  split
  · rename_i rest heq
    injection heq with h1 h2
    exact absurd h1 h
  · rfl


/-! ## The string escape/parse round trip -/

theorem parseStrBody_escape (cs : List Char) :
    ∀ rest, parseStrBody (escapeChars cs ++ '"' :: rest) = some (cs, rest) := by
  induction cs with
  | nil =>
    intro rest
    rw [show escapeChars [] ++ '"' :: rest = '"' :: rest from rfl, parseStrBody.eq_def]
    simp
  | cons c cs ih =>
    intro rest
    show parseStrBody ((escapeChar c ++ escapeChars cs) ++ '"' :: rest) = _
    rw [List.append_assoc]
    by_cases hq : c = '"'
    · subst hq
      simp only [escapeChar, if_pos rfl, List.cons_append, List.nil_append]
      rw [parseStrBody.eq_def]
      simp [ih]
    · by_cases hb : c = '\\'
      · subst hb
        simp only [escapeChar, List.cons_append, List.nil_append]
        norm_num
        rw [parseStrBody.eq_def]
        simp [ih]
      · by_cases h08 : c = '\x08'
        · subst h08
          simp only [escapeChar, List.cons_append, List.nil_append]
          norm_num
          rw [parseStrBody.eq_def]
          simp [ih]
        · by_cases ht : c = '\t'
          · subst ht
            simp only [escapeChar, List.cons_append, List.nil_append]
            norm_num
            rw [parseStrBody.eq_def]
            simp [ih]
          · by_cases hnl : c = '\n'
            · subst hnl
              simp only [escapeChar, List.cons_append, List.nil_append]
              norm_num
              rw [parseStrBody.eq_def]
              simp [ih]
            · by_cases h0c : c = '\x0c'
              · subst h0c
                simp only [escapeChar, List.cons_append, List.nil_append]
                norm_num
                rw [parseStrBody.eq_def]
                simp [ih]
              · by_cases hr : c = '\r'
                · subst hr
                  simp only [escapeChar, List.cons_append, List.nil_append]
                  norm_num
                  rw [parseStrBody.eq_def]
                  simp [ih]
                · by_cases hctl : c.toNat < 32
                  · have e0 : hexVal '0' = some 0 := by decide
                    have e1 : hexVal (hexChar (c.toNat / 16)) = some (c.toNat / 16) :=
                      hexVal_hexChar _ (by omega)
                    have e2 : hexVal (hexChar (c.toNat % 16)) = some (c.toNat % 16) :=
                      hexVal_hexChar _ (by omega)
                    have harith : c.toNat / 16 * 16 + c.toNat % 16 = c.toNat := by omega
                    simp only [escapeChar, hq, hb, h08, ht, hnl, h0c, hr, if_neg, if_false,
                      ite_false, if_pos hctl, ite_true, List.cons_append, List.nil_append]
                    rw [parseStrBody.eq_def]
                    simp [e0, e1, e2, ih]
                    rw [harith, Char.ofNat_toNat]
                  · simp only [escapeChar, hq, hb, h08, ht, hnl, h0c, hr, hctl, if_neg,
                      if_false, ite_false, List.cons_append, List.nil_append]
                    rw [parseStrBody.eq_def]
                    simp [hq, hb, hctl, ih]


/-! ## Shape lemmas for emitted text -/

theorem commaJoin_cons (x : List Char) (xs : List (List Char)) :
    commaJoin (x :: xs) = x ++ (if xs = [] then [] else ',' :: commaJoin xs) := by
  cases xs with
  | nil => simp [commaJoin]
  | cons y ys => simp [commaJoin]

theorem jTextVal_head (v : JsVal) :
    ∃ c cs2, jTextVal v = c :: cs2 ∧ (c ≠ ']' ∧ c ≠ '}') := by
  cases v with
  | num n =>
    rw [show jTextVal (.num n) = intChars n from rfl, intChars]
    by_cases h : n < 0
    · rw [if_pos h]
      exact ⟨'-', _, rfl, by decide⟩
    · rw [if_neg h]
      obtain ⟨d, rest, h1, h2⟩ := pushDigits_head n.toNat []
      refine ⟨d, rest, h1, ne_of_isDigitCh d ']' h2 (by decide), ?_⟩
      exact ne_of_isDigitCh d '}' h2 (by decide)
  | boolean b =>
    cases b
    · exact ⟨'f', _, rfl, by decide⟩
    · exact ⟨'t', _, rfl, by decide⟩
  | jsUndefined => exact ⟨'n', _, rfl, by decide⟩
  | null => exact ⟨'n', _, rfl, by decide⟩
  | str s => exact ⟨'"', _, rfl, by decide⟩
  | arr es => exact ⟨'[', _, rfl, by decide⟩
  | obj fs => exact ⟨'{', _, rfl, by decide⟩

theorem jTextVal_ne_nil (v : JsVal) : jTextVal v ≠ [] := by
  obtain ⟨c, cs2, h, _⟩ := jTextVal_head v
  rw [h]
  exact List.cons_ne_nil c cs2

theorem jTextFields_cons_skip (k : String) (fs : List (String × JsVal)) :
    jTextFields ((k, .jsUndefined) :: fs) = jTextFields fs := rfl

theorem jTextFields_cons (k : String) (v : JsVal) (fs : List (String × JsVal))
    (h : v ≠ .jsUndefined) :
    jTextFields ((k, v) :: fs) =
      ('"' :: escapeChars k.data ++ '"' :: ':' :: jTextVal v) :: jTextFields fs := by
  cases v with
  | jsUndefined => exact absurd rfl h
  | null => rfl
  | boolean b => rfl
  | num n => rfl
  | str s => rfl
  | arr es => rfl
  | obj fs2 => rfl

theorem dropUFields_cons_skip (k : String) (fs : List (String × JsVal)) :
    dropUFields ((k, .jsUndefined) :: fs) = dropUFields fs := rfl

theorem dropUFields_cons (k : String) (v : JsVal) (fs : List (String × JsVal))
    (h : v ≠ .jsUndefined) :
    dropUFields ((k, v) :: fs) = (k, dropU v) :: dropUFields fs := by
  cases v with
  | jsUndefined => exact absurd rfl h
  | null => rfl
  | boolean b => rfl
  | num n => rfl
  | str s => rfl
  | arr es => rfl
  | obj fs2 => rfl

theorem jTextFields_entry (fs : List (String × JsVal)) (x : List Char)
    (xs : List (List Char)) (h : jTextFields fs = x :: xs) : ∃ cs2, x = '"' :: cs2 := by
  induction fs generalizing x xs with
  | nil => exact absurd h (by simp [jTextFields])
  | cons hd fs2 ih =>
    obtain ⟨k, v⟩ := hd
    by_cases hv : v = .jsUndefined
    · subst hv
      exact ih x xs h
    · rw [jTextFields_cons k v fs2 hv] at h
      injection h with h1 _
      exact ⟨_, h1.symm⟩

theorem jTextFields_nil_iff (fs : List (String × JsVal)) :
    jTextFields fs = [] ↔ dropUFields fs = [] := by
  induction fs with
  | nil => simp [jTextFields, dropUFields]
  | cons hd fs2 ih =>
    obtain ⟨k, v⟩ := hd
    by_cases hv : v = .jsUndefined
    · subst hv
      rw [jTextFields_cons_skip, dropUFields_cons_skip]
      exact ih
    · rw [jTextFields_cons k v fs2 hv, dropUFields_cons k v fs2 hv]
      simp

/-! ## Fuel requirements of the parser on emitted text -/


theorem needFields_cons_skip (k : String) (fs : List (String × JsVal)) :
    needFields ((k, .jsUndefined) :: fs) = needFields fs := rfl

theorem needFields_cons (k : String) (v : JsVal) (fs : List (String × JsVal))
    (h : v ≠ .jsUndefined) :
    needFields ((k, v) :: fs) = 1 + max (needVal v) (needFields fs) := by
  cases v with
  | jsUndefined => exact absurd rfl h
  | null => rfl
  | boolean b => rfl
  | num n => rfl
  | str s => rfl
  | arr es => rfl
  | obj fs2 => rfl

theorem needVal_pos (v : JsVal) : 1 ≤ needVal v := by
  cases v <;> simp [needVal]

theorem needElems_pos (es : List JsVal) (h : es ≠ []) : 1 ≤ needElems es := by
  cases es with
  | nil => exact absurd rfl h
  | cons e es2 => simp [needElems]

theorem needFields_zero (fs : List (String × JsVal)) (h : jTextFields fs = []) :
    needFields fs = 0 := by
  induction fs with
  | nil => rfl
  | cons hd fs2 ih =>
    obtain ⟨k, v⟩ := hd
    by_cases hv : v = .jsUndefined
    · subst hv
      exact ih h
    · rw [jTextFields_cons k v fs2 hv] at h
      exact absurd h (List.cons_ne_nil _ _)

theorem needFields_pos (fs : List (String × JsVal)) (h : jTextFields fs ≠ []) :
    1 ≤ needFields fs := by
  induction fs with
  | nil => exact absurd rfl h
  | cons hd fs2 ih =>
    obtain ⟨k, v⟩ := hd
    by_cases hv : v = .jsUndefined
    · subst hv
      exact ih h
    · rw [needFields_cons k v fs2 hv]
      omega


theorem jTextElems_nil_iff (es : List JsVal) : jTextElems es = [] ↔ es = [] := by
  cases es with
  | nil => simp [jTextElems]
  | cons e es2 => simp [jTextElems]

mutual

theorem needVal_le : ∀ v : JsVal, needVal v ≤ (jTextVal v).length + 1
  | .jsUndefined => by simp [needVal, jTextVal]
  | .null => by simp [needVal, jTextVal]
  | .boolean b => by cases b <;> simp [needVal, jTextVal]
  | .num n => by
    show 1 ≤ (jTextVal (.num n)).length + 1
    omega
  | .str s => by
    show 1 ≤ (jTextVal (.str s)).length + 1
    omega
  | .arr es => by
    have h := needElems_le es
    show 1 + needElems es ≤ ('[' :: commaJoin (jTextElems es) ++ [']']).length + 1
    simp only [List.cons_append, List.length_cons, List.length_append]
    omega
  | .obj fs => by
    have h := needFields_le fs
    show 1 + needFields fs ≤ ('{' :: commaJoin (jTextFields fs) ++ ['}']).length + 1
    simp only [List.cons_append, List.length_cons, List.length_append]
    omega

theorem needElems_le : ∀ es : List JsVal, needElems es ≤ (commaJoin (jTextElems es)).length + 2
  | [] => by simp [needElems]
  | e :: es2 => by
    have h1 := needVal_le e
    cases es2 with
    | nil =>
      show 1 + max (needVal e) (needElems []) ≤ (commaJoin (jTextVal e :: jTextElems [])).length + 2
      simp only [jTextElems, commaJoin, needElems]
      omega
    | cons e2 es3 =>
      have h2 := needElems_le (e2 :: es3)
      show 1 + max (needVal e) (needElems (e2 :: es3)) ≤
        (commaJoin (jTextVal e :: jTextElems (e2 :: es3))).length + 2
      rw [commaJoin_cons, if_neg (by simp [jTextElems])]
      simp only [List.length_append, List.length_cons]
      omega

theorem needFields_le : ∀ fs : List (String × JsVal),
    needFields fs ≤ (commaJoin (jTextFields fs)).length + 2
  | [] => by simp [needFields]
  | (k, v) :: fs2 => by
    by_cases hv : v = .jsUndefined
    · subst hv
      rw [jTextFields_cons_skip, needFields_cons_skip]
      exact needFields_le fs2
    · have h1 := needVal_le v
      have h2 := needFields_le fs2
      rw [needFields_cons k v fs2 hv, jTextFields_cons k v fs2 hv, commaJoin_cons]
      by_cases hJ : jTextFields fs2 = []
      · rw [if_pos hJ]
        have h0 : needFields fs2 = 0 := needFields_zero fs2 hJ
        simp only [List.append_nil, List.length_cons, List.length_append]
        omega
      · rw [if_neg hJ]
        simp only [List.length_append, List.length_cons]
        omega

end

mutual

theorem dropU_eq_self : ∀ v : JsVal, noUndefined v = true → dropU v = v
  | .jsUndefined, h => by simp [noUndefined] at h
  | .null, _ => rfl
  | .boolean b, _ => rfl
  | .num n, _ => rfl
  | .str s, _ => rfl
  | .arr es, h => by
    rw [show dropU (.arr es) = .arr (dropUList es) from rfl,
      dropUList_eq_self es (by simpa [noUndefined] using h)]
  | .obj fs, h => by
    rw [show dropU (.obj fs) = .obj (dropUFields fs) from rfl,
      dropUFields_eq_self fs (by simpa [noUndefined] using h)]

theorem dropUList_eq_self : ∀ es : List JsVal, noUndefinedList es = true → dropUList es = es
  | [], _ => rfl
  | e :: es2, h => by
    have h1 : noUndefined e = true ∧ noUndefinedList es2 = true := by
      simpa [noUndefinedList, Bool.and_eq_true] using h
    rw [show dropUList (e :: es2) = dropU e :: dropUList es2 from rfl,
      dropU_eq_self e h1.1, dropUList_eq_self es2 h1.2]

theorem dropUFields_eq_self : ∀ fs : List (String × JsVal),
    noUndefinedFields fs = true → dropUFields fs = fs
  | [], _ => rfl
  | (k, v) :: fs2, h => by
    have h1 : noUndefined v = true ∧ noUndefinedFields fs2 = true := by
      simpa [noUndefinedFields, Bool.and_eq_true] using h
    have hv : v ≠ .jsUndefined := by
      intro he
      subst he
      simp [noUndefined] at h1
    rw [dropUFields_cons k v fs2 hv, dropU_eq_self v h1.1, dropUFields_eq_self fs2 h1.2]

end


/-! ## Soundness of the parser on emitted text -/

theorem parse_sound (fuel : Nat) :
    (∀ v rest, needVal v ≤ fuel → noDigitHead rest = true →
      parseVal fuel (jTextVal v ++ rest) = some (dropU v, rest)) ∧
    (∀ es rest, es ≠ [] → needElems es ≤ fuel →
      parseElems fuel (commaJoin (jTextElems es) ++ ']' :: rest) = some (dropUList es, rest)) ∧
    (∀ fs rest, jTextFields fs ≠ [] → needFields fs ≤ fuel →
      parseFields fuel (commaJoin (jTextFields fs) ++ '}' :: rest) =
        some (dropUFields fs, rest)) := by
  induction fuel with
  | zero =>
    refine ⟨fun v rest hneed _ => absurd hneed (by have := needVal_pos v; omega),
      fun es rest hne hneed => absurd hneed (by have := needElems_pos es hne; omega),
      fun fs rest hne hneed => absurd hneed (by have := needFields_pos fs hne; omega)⟩
  | succ f ih =>
    obtain ⟨ihV, ihE, ihF⟩ := ih
    refine ⟨?_, ?_, ?_⟩
    · intro v rest hneed hrest
      cases v with
      | jsUndefined => exact parseVal_nullTok f rest
      | null => exact parseVal_nullTok f rest
      | boolean b =>
        cases b
        · exact parseVal_falseTok f rest
        · exact parseVal_trueTok f rest
      | num n =>
        by_cases hn : n < 0
        · have htext : jTextVal (.num n) = '-' :: pushDigits [] n.natAbs := by
            rw [show jTextVal (.num n) = intChars n from rfl, intChars, if_pos hn]
          obtain ⟨d, ds, hd, hdig⟩ := pushDigits_head n.natAbs []
          rw [htext, hd, show ('-' :: d :: ds) ++ rest = '-' :: d :: (ds ++ rest) from rfl,
            parseVal_negTok f d (ds ++ rest) hdig]
          have h0 : parseDigits 0 (pushDigits [] n.natAbs ++ rest) = (n.natAbs, rest) :=
            parseDigits_run n.natAbs rest hrest
          rw [hd, show (d :: ds) ++ rest = d :: (ds ++ rest) from rfl] at h0
          have h0A : parseDigits (digitVal d) (ds ++ rest) = (n.natAbs, rest) := by
            simpa [parseDigits, hdig] using h0
          rw [h0A]
          have habs : (-(n.natAbs : Int)) = n := by omega
          exact congrArg (fun m => some (JsVal.num m, rest)) habs
        · have htext : jTextVal (.num n) = pushDigits [] n.toNat := by
            rw [show jTextVal (.num n) = intChars n from rfl, intChars, if_neg hn]
          obtain ⟨d, ds, hd, hdig⟩ := pushDigits_head n.toNat []
          rw [htext, hd, show (d :: ds) ++ rest = d :: (ds ++ rest) from rfl,
            parseVal_digitTok f d (ds ++ rest) hdig]
          have h0 : parseDigits 0 (pushDigits [] n.toNat ++ rest) = (n.toNat, rest) :=
            parseDigits_run n.toNat rest hrest
          rw [hd, show (d :: ds) ++ rest = d :: (ds ++ rest) from rfl] at h0
          have h0A : parseDigits (digitVal d) (ds ++ rest) = (n.toNat, rest) := by
            simpa [parseDigits, hdig] using h0
          rw [h0A]
          have habs : ((n.toNat : Nat) : Int) = n := by omega
          exact congrArg (fun m => some (JsVal.num m, rest)) habs
      | str s =>
        have htext : jTextVal (.str s) ++ rest = '"' :: (escapeChars s.data ++ '"' :: rest) := by
          rw [show jTextVal (.str s) = '"' :: escapeChars s.data ++ ['"'] from rfl]
          simp
        rw [htext, parseVal_strTok, parseStrBody_escape s.data rest]
        simp [dropU]
      | arr es =>
        cases es with
        | nil => exact parseVal_arrNil f rest
        | cons e es2 =>
          obtain ⟨c, cs2, hc, hcne, _⟩ := jTextVal_head e
          have hX : commaJoin (jTextElems (e :: es2)) ++ ']' :: rest =
              c :: (cs2 ++ ((if jTextElems es2 = [] then []
                else ',' :: commaJoin (jTextElems es2)) ++ ']' :: rest)) := by
            rw [show jTextElems (e :: es2) = jTextVal e :: jTextElems es2 from rfl,
              commaJoin_cons, hc]
            simp [List.append_assoc]
          have h1 : jTextVal (.arr (e :: es2)) ++ rest =
              '[' :: (commaJoin (jTextElems (e :: es2)) ++ ']' :: rest) := by
            rw [show jTextVal (.arr (e :: es2)) =
              '[' :: commaJoin (jTextElems (e :: es2)) ++ [']'] from rfl]
            simp
          have hneed2 : needElems (e :: es2) ≤ f := by
            have hx : needVal (.arr (e :: es2)) = 1 + needElems (e :: es2) := rfl
            omega
          rw [h1, hX, parseVal_arrCons f c _ hcne, ← hX,
            ihE (e :: es2) rest (by simp) hneed2]
          simp [dropU]
      | obj fs =>
        cases hJF : jTextFields fs with
        | nil =>
          have hdf : dropUFields fs = [] := (jTextFields_nil_iff fs).mp hJF
          have h1 : jTextVal (.obj fs) ++ rest = '{' :: '}' :: rest := by
            rw [show jTextVal (.obj fs) =
              '{' :: commaJoin (jTextFields fs) ++ ['}'] from rfl, hJF]
            rfl
          rw [h1, parseVal_objNil]
          simp [dropU, hdf]
        | cons x xs =>
          obtain ⟨cs2, hx⟩ := jTextFields_entry fs x xs hJF
          have hX : commaJoin (jTextFields fs) ++ '}' :: rest =
              '"' :: (cs2 ++ ((if xs = [] then [] else ',' :: commaJoin xs) ++ '}' :: rest)) := by
            rw [hJF, commaJoin_cons, hx]
            simp [List.append_assoc]
          have h1 : jTextVal (.obj fs) ++ rest =
              '{' :: (commaJoin (jTextFields fs) ++ '}' :: rest) := by
            rw [show jTextVal (.obj fs) =
              '{' :: commaJoin (jTextFields fs) ++ ['}'] from rfl]
            simp
          have hneed2 : needFields fs ≤ f := by
            have hx2 : needVal (.obj fs) = 1 + needFields fs := rfl
            omega
          rw [h1, hX, parseVal_objCons f '"' _ (by decide), ← hX,
            ihF fs rest (by rw [hJF]; simp) hneed2]
          simp [dropU]
    · intro es rest hne hneed
      cases es with
      | nil => exact absurd rfl hne
      | cons e es2 =>
        have hneedV : needVal e ≤ f := by
          have hx : needElems (e :: es2) = 1 + max (needVal e) (needElems es2) := rfl
          omega
        cases es2 with
        | nil =>
          have hIn : commaJoin (jTextElems [e]) ++ ']' :: rest = jTextVal e ++ ']' :: rest := by
            rw [show jTextElems [e] = [jTextVal e] from rfl]
            simp [commaJoin]
          have hV : parseVal f (jTextVal e ++ ']' :: rest) = some (dropU e, ']' :: rest) :=
            ihV e (']' :: rest) hneedV rfl
          rw [hIn]
          simp [parseElems, hV, dropUList]
        | cons e2 es3 =>
          have hIn : commaJoin (jTextElems (e :: e2 :: es3)) ++ ']' :: rest =
              jTextVal e ++ (',' :: (commaJoin (jTextElems (e2 :: es3)) ++ ']' :: rest)) := by
            rw [show jTextElems (e :: e2 :: es3) =
              jTextVal e :: jTextElems (e2 :: es3) from rfl,
              commaJoin_cons, if_neg (by simp [jTextElems])]
            simp [List.append_assoc]
          have hV : parseVal f
              (jTextVal e ++ (',' :: (commaJoin (jTextElems (e2 :: es3)) ++ ']' :: rest))) =
              some (dropU e, ',' :: (commaJoin (jTextElems (e2 :: es3)) ++ ']' :: rest)) :=
            ihV e _ hneedV rfl
          have hE2 : parseElems f (commaJoin (jTextElems (e2 :: es3)) ++ ']' :: rest) =
              some (dropUList (e2 :: es3), rest) :=
            ihE (e2 :: es3) rest (by simp)
              (by have hx : needElems (e :: e2 :: es3) =
                    1 + max (needVal e) (needElems (e2 :: es3)) := rfl
                  omega)
          rw [hIn]
          simp [parseElems, hV, hE2, dropUList]
    · intro fs
      induction fs with
      | nil =>
        intro rest hne _
        exact absurd rfl hne
      | cons hd fs2 ihfs =>
        obtain ⟨k, v⟩ := hd
        intro rest hne hneed
        by_cases hv : v = .jsUndefined
        · subst hv
          exact ihfs rest hne hneed
        · have hneedV : needVal v ≤ f := by
            have hx := needFields_cons k v fs2 hv
            omega
          cases hJT : jTextFields fs2 with
          | nil =>
            have hIn : commaJoin (jTextFields ((k, v) :: fs2)) ++ '}' :: rest =
                '"' :: (escapeChars k.data ++ '"' :: (':' :: (jTextVal v ++ '}' :: rest))) := by
              rw [jTextFields_cons k v fs2 hv, hJT]
              simp [commaJoin]
            have hS : parseStrBody
                (escapeChars k.data ++ '"' :: (':' :: (jTextVal v ++ '}' :: rest))) =
                some (k.data, ':' :: (jTextVal v ++ '}' :: rest)) :=
              parseStrBody_escape k.data _
            have hV : parseVal f (jTextVal v ++ '}' :: rest) = some (dropU v, '}' :: rest) :=
              ihV v ('}' :: rest) hneedV rfl
            have hD : dropUFields fs2 = [] := (jTextFields_nil_iff fs2).mp hJT
            rw [hIn]
            simp [parseFields, hS, hV, dropUFields_cons k v fs2 hv, hD]
          | cons x2 xs2 =>
            have hIn : commaJoin (jTextFields ((k, v) :: fs2)) ++ '}' :: rest =
                '"' :: (escapeChars k.data ++ '"' :: (':' :: (jTextVal v ++
                  ',' :: (commaJoin (jTextFields fs2) ++ '}' :: rest)))) := by
              rw [jTextFields_cons k v fs2 hv, commaJoin_cons,
                if_neg (by rw [hJT]; simp)]
              simp [List.append_assoc]
            have hS : parseStrBody (escapeChars k.data ++ '"' :: (':' :: (jTextVal v ++
                ',' :: (commaJoin (jTextFields fs2) ++ '}' :: rest)))) =
                some (k.data, ':' :: (jTextVal v ++
                  ',' :: (commaJoin (jTextFields fs2) ++ '}' :: rest))) :=
              parseStrBody_escape k.data _
            have hV : parseVal f (jTextVal v ++
                ',' :: (commaJoin (jTextFields fs2) ++ '}' :: rest)) =
                some (dropU v, ',' :: (commaJoin (jTextFields fs2) ++ '}' :: rest)) :=
              ihV v _ hneedV rfl
            have hF2 : parseFields f (commaJoin (jTextFields fs2) ++ '}' :: rest) =
                some (dropUFields fs2, rest) :=
              ihF fs2 rest (by rw [hJT]; simp)
                (by have hx := needFields_cons k v fs2 hv
                    omega)
            rw [hIn]
            simp [parseFields, hS, hV, hF2, dropUFields_cons k v fs2 hv]


/-! ## The stringify/parse round trip -/

theorem JSONparse_mk_jTextVal (v : JsVal) :
    JSONparse (String.mk (jTextVal v)) = some (dropU v) := by
  unfold JSONparse
  have hmain := (parse_sound ((jTextVal v).length + 1)).1 v [] (needVal_le v) rfl
  rw [List.append_nil] at hmain
  rw [show (String.mk (jTextVal v)).length = (jTextVal v).length from rfl,
    show (String.mk (jTextVal v)).data = jTextVal v from rfl, hmain]

theorem JSONstringify_of_defined (v : JsVal) (h : v ≠ .jsUndefined) :
    JSONstringify v = some (String.mk (jTextVal v)) := by
  cases v with
  | jsUndefined => exact absurd rfl h
  | null => rfl
  | boolean b => rfl
  | num n => rfl
  | str s => rfl
  | arr es => rfl
  | obj fs => rfl

theorem serializeForStore_eq (v : JsVal) (h : v ≠ .jsUndefined) :
    serializeForStore v = String.mk (jTextVal v) := by
  unfold serializeForStore
  rw [JSONstringify_of_defined v h]

theorem serializeForStore_ne_empty (v : JsVal) (h : v ≠ .jsUndefined) :
    serializeForStore v ≠ "" := by
  rw [serializeForStore_eq v h]
  intro he
  exact jTextVal_ne_nil v (congrArg String.data he)

theorem JSONparse_serializeForStore (v : JsVal) (h : v ≠ .jsUndefined) :
    JSONparse (serializeForStore v) = some (dropU v) := by
  rw [serializeForStore_eq v h, JSONparse_mk_jTextVal v]

/-! ## Cache behavior on a primed key -/


theorem preferStorage_hit (st : Store) (k : String) (p : Except String JsVal)
    (s : String) (v : JsVal) (h1 : getItem st k = some s) (h2 : s ≠ "")
    (h3 : JSONparse s = some v) :
    preferStorage st k p = ⟨.ok v, st, false⟩ := by
  unfold preferStorage
  rw [h1]
  simp only [Option.getD_some]
  rw [if_pos h2, h3]

theorem preferStorage_hit_primed (st : Store) (k : String) (p : Except String JsVal)
    (v : JsVal) (h : primed st k v) : preferStorage st k p = ⟨.ok v, st, false⟩ := by
  obtain ⟨s, h1, h2, h3⟩ := h
  exact preferStorage_hit st k p s v h1 h2 h3

theorem getItem_after_call (st : Store) (k : String) (p : Except String JsVal)
    (k2 : String) (h : k2 ≠ k) :
    getItem (preferStorage st k p).store k2 = getItem st k2 := by
  rcases preferStorage_store_cases st k p with hst | ⟨r, _, hst⟩
  · rw [hst]
  · rw [hst]
    exact getItem_setItem_ne st k _ k2 h

theorem primed_after_write (st : Store) (k : String) (v : JsVal) (hv : v ≠ .jsUndefined) :
    primed (setItem st k (serializeForStore v)) k (dropU v) :=
  ⟨serializeForStore v, getItem_setItem_self st k _, serializeForStore_ne_empty v hv,
    JSONparse_serializeForStore v hv⟩

theorem primed_preserve (st : Store) (k : String) (v : JsVal) (k2 : String)
    (p : Except String JsVal) (h : primed st k v) :
    primed (preferStorage st k2 p).store k v := by
  by_cases hk : k2 = k
  · subst hk
    rw [preferStorage_hit_primed st k2 p v h]
    exact h
  · obtain ⟨s, h1, h2, h3⟩ := h
    exact ⟨s, by rw [getItem_after_call st k2 p k (fun he => hk he.symm)]; exact h1, h2, h3⟩

/-! ## Trace lemmas -/

theorem traceFor_call (k : String) (st : Store) (k2 : String) (p : Except String JsVal)
    (ops : List Op) :
    traceFor k st (.call k2 p :: ops) =
      if k2 = k then
        ((preferStorage st k2 p).outcome, (preferStorage st k2 p).invoked) ::
          traceFor k (preferStorage st k2 p).store ops
      else traceFor k (preferStorage st k2 p).store ops := rfl

theorem traceFor_primed (k : String) (v : JsVal) (ops : List Op) :
    ∀ st, primed st k v → ∀ e ∈ traceFor k st ops, e = (.ok v, false) := by
  induction ops with
  | nil =>
    intro st _ e he
    exact absurd he (List.not_mem_nil e)
  | cons op ops ih =>
    intro st hp e he
    cases op with
    | restart => exact ih st hp e he
    | call k2 p =>
      by_cases hk : k2 = k
      · subst hk
        rw [traceFor_call, if_pos rfl, preferStorage_hit_primed st k2 p v hp] at he
        rcases List.mem_cons.mp he with he1 | he2
        · exact he1
        · exact ih st hp e he2
      · rw [traceFor_call, if_neg hk] at he
        exact ih (preferStorage st k2 p).store (primed_preserve st k v k2 p hp) e he


theorem preferStorage_truthy (st : Store) (k : String) (p : Except String JsVal)
    (h : ¬((getItem st k).getD "" = "")) :
    (preferStorage st k p).store = st ∧ (preferStorage st k p).invoked = false := by
  unfold preferStorage
  rw [if_pos h]
  split <;> exact ⟨rfl, rfl⟩

theorem filter_invoked_nil (l : List (Except CacheErr JsVal × Bool))
    (x : Except CacheErr JsVal) (h : ∀ e ∈ l, e = (x, false)) :
    l.filter (fun e => e.2) = [] := by
  rw [List.filter_eq_nil_iff]
  intro e he
  rw [h e he]
  simp

theorem traceFor_stable (k : String) : ∀ (ops : List Op) (st : Store),
    (∀ p, Op.call k p ∈ ops → ∃ v, p = Except.ok v ∧ noUndefined v = true) →
    ((traceFor k st ops).filter (fun e => e.2)).length ≤ 1 ∧
      stableAfterFirst (traceFor k st ops) := by
  intro ops
  induction ops with
  | nil =>
    intro st _
    exact ⟨by simp [traceFor], trivial⟩
  | cons op ops ih =>
    intro st hgood
    have hgood2 : ∀ p, Op.call k p ∈ ops → ∃ v, p = Except.ok v ∧ noUndefined v = true :=
      fun p hp => hgood p (List.mem_cons_of_mem _ hp)
    cases op with
    | restart => exact ih st hgood2
    | call k2 p =>
      by_cases hk : k2 = k
      · subst hk
        obtain ⟨v, hpv, hnu⟩ := hgood p (List.mem_cons_self _ _)
        subst hpv
        by_cases hmiss : (getItem st k2).getD "" = ""
        · have hv : v ≠ .jsUndefined := fun he => by subst he; simp [noUndefined] at hnu
          have hw := preferStorage_miss_ok st k2 v hmiss
          have hprime : primed (setItem st k2 (serializeForStore v)) k2 v := by
            have hpw := primed_after_write st k2 v hv
            rwa [dropU_eq_self v hnu] at hpw
          have hall := traceFor_primed k2 v ops (setItem st k2 (serializeForStore v)) hprime
          rw [traceFor_call, if_pos rfl, hw]
          constructor
          · simp only [List.filter_cons]
            rw [filter_invoked_nil _ (.ok v) hall]
            simp
          · exact hall
        · have htr := preferStorage_truthy st k2 (Except.ok v) hmiss
          rw [traceFor_call, if_pos rfl, htr.1, htr.2]
          obtain ⟨hcount, hstable⟩ := ih st hgood2
          constructor
          · simp only [List.filter_cons, Bool.false_eq_true, if_false]
            simpa using hcount
          · exact hstable
      · rw [traceFor_call, if_neg hk]
        exact ih (preferStorage st k2 p).store hgood2


/-! ## Claim theorems: the cache hit path and the round trip -/

/-- C1 counterexample: the key `"k"` is present in the store (mapped to the
empty string), yet `preferStorage` invokes the producer — the truthiness test
treats the entry as absent, so a present key does not guarantee that the
producer is never invoked. -/
theorem preferStorage_present_key_invokes :
    getItem [("k", "")] "k" = some "" ∧
      (preferStorage [("k", "")] "k" (Except.ok JsVal.null)).invoked = true :=
  ⟨rfl, rfl⟩

/-- C1 amended: for every key whose stored value is a non-empty string that
deserializes to `v`, `get(k, p)` returns `v` immediately, leaves the store
unchanged and never invokes `p`; and calling `get(k, () => r)` twice in
sequence from a state where the entry of `k` is absent or empty, for a resource
`r` containing no `undefined`, invokes the producer exactly once: the first
call invokes and returns `r`, the second returns a value structurally equal
to `r` without invoking its producer. -/
theorem preferStorage_hit_and_dedup :
    (∀ (st : Store) (k : String) (p : Except String JsVal) (s : String) (v : JsVal),
      getItem st k = some s → s ≠ "" → JSONparse s = some v →
        preferStorage st k p = ⟨.ok v, st, false⟩) ∧
    (∀ (st : Store) (k : String) (r : JsVal),
      (getItem st k).getD "" = "" → noUndefined r = true →
        preferStorage st k (.ok r) = ⟨.ok r, setItem st k (serializeForStore r), true⟩ ∧
        ∀ p2, preferStorage (setItem st k (serializeForStore r)) k p2 =
          ⟨.ok r, setItem st k (serializeForStore r), false⟩) := by
  refine ⟨preferStorage_hit, ?_⟩
  intro st k r hmiss hnu
  have hv : r ≠ .jsUndefined := fun he => by subst he; simp [noUndefined] at hnu
  refine ⟨preferStorage_miss_ok st k r hmiss, fun p2 => ?_⟩
  have hpr : primed (setItem st k (serializeForStore r)) k r := by
    have hpw := primed_after_write st k r hv
    rwa [dropU_eq_self r hnu] at hpw
  exact preferStorage_hit_primed _ k p2 r hpr

/-- Witness for `preferStorage_hit_and_dedup` at concrete inputs. -/
theorem preferStorage_hit_and_dedup_witness :
    (getItem [("k", "null")] "k" = some "null" ∧ "null" ≠ "" ∧
        JSONparse "null" = some JsVal.null ∧
        preferStorage [("k", "null")] "k" (.error "boom") = ⟨.ok JsVal.null, [("k", "null")], false⟩) ∧
      ((getItem [] "movie" : Option String).getD "" = "" ∧
        noUndefined (JsVal.boolean true) = true ∧
        (preferStorage [] "movie" (Except.ok (JsVal.boolean true)) =
            ⟨.ok (JsVal.boolean true),
              setItem [] "movie" (serializeForStore (JsVal.boolean true)), true⟩ ∧
          ∀ p2, preferStorage (setItem [] "movie" (serializeForStore (JsVal.boolean true)))
              "movie" p2 =
            ⟨.ok (JsVal.boolean true),
              setItem [] "movie" (serializeForStore (JsVal.boolean true)), false⟩)) :=
  ⟨⟨rfl, by decide, rfl,
      preferStorage_hit_and_dedup.1 [("k", "null")] "k" (.error "boom") "null" JsVal.null rfl
        (by decide) rfl⟩,
    ⟨rfl, rfl, preferStorage_hit_and_dedup.2 [] "movie" (JsVal.boolean true) rfl rfl⟩⟩

/-- C6: writing a non-`undefined` value `v` through the cache on a miss and
reading it back on the subsequent hit yields `dropU v`: `undefined`-valued
object fields are dropped (and `undefined` array elements become `null`)
rather than altered, and for values containing no `undefined` at all the
value read back is structurally equal to `v` itself. -/
theorem cache_roundtrip (st : Store) (k : String) (v : JsVal)
    (habs : getItem st k = none) (hv : v ≠ .jsUndefined) :
    preferStorage st k (.ok v) = ⟨.ok v, setItem st k (serializeForStore v), true⟩ ∧
      (∀ p2, preferStorage (setItem st k (serializeForStore v)) k p2 =
        ⟨.ok (dropU v), setItem st k (serializeForStore v), false⟩) ∧
      (noUndefined v = true → dropU v = v) := by
  have hmiss : (getItem st k).getD "" = "" := by rw [habs]; rfl
  exact ⟨preferStorage_miss_ok st k v hmiss,
    fun p2 => preferStorage_hit_primed _ k p2 (dropU v) (primed_after_write st k v hv),
    dropU_eq_self v⟩

/-- Witness for `cache_roundtrip` at a concrete input: an object with an
`undefined` field is read back with that field dropped. -/
theorem cache_roundtrip_witness :
    getItem [] "movie:42" = none ∧
      (preferStorage [] "movie:42" (Except.ok (JsVal.obj [("a", JsVal.null), ("b", JsVal.jsUndefined)])) =
          ⟨.ok (JsVal.obj [("a", JsVal.null), ("b", JsVal.jsUndefined)]),
            setItem [] "movie:42"
              (serializeForStore (JsVal.obj [("a", JsVal.null), ("b", JsVal.jsUndefined)])), true⟩ ∧
        (∀ p2, preferStorage
            (setItem [] "movie:42"
              (serializeForStore (JsVal.obj [("a", JsVal.null), ("b", JsVal.jsUndefined)])))
            "movie:42" p2 =
          ⟨.ok (JsVal.obj [("a", JsVal.null)]),
            setItem [] "movie:42"
              (serializeForStore (JsVal.obj [("a", JsVal.null), ("b", JsVal.jsUndefined)])), false⟩) ∧
        (noUndefined (JsVal.obj [("a", JsVal.null), ("b", JsVal.jsUndefined)]) = true →
          dropU (JsVal.obj [("a", JsVal.null), ("b", JsVal.jsUndefined)]) =
            JsVal.obj [("a", JsVal.null), ("b", JsVal.jsUndefined)])) :=
  ⟨rfl, cache_roundtrip [] "movie:42" (JsVal.obj [("a", JsVal.null), ("b", JsVal.jsUndefined)]) rfl
    (fun h => JsVal.noConfusion h)⟩

/-- C3 counterexample: when the first fetch for a key fails, a later call
fetches again — two network fetches for the same key over the lifetime of the store, contradicting the unconditional at-most-one-fetch invariant. -/
theorem two_fetches_after_failure :
    fetchCount "k" [] [Op.call "k" (.error "boom"), Op.call "k" (Except.ok JsVal.null)] = 2 ∧
      ¬(fetchCount "k" [] [Op.call "k" (.error "boom"),
          Op.call "k" (Except.ok JsVal.null)] ≤ 1) :=
  ⟨rfl, by decide⟩

/-- C3 amended: for every key `k` and every lifetime trace of calls and
process restarts against one persistent store in which every producer used
for `k` succeeds with an `undefined`-free resource, at most one producer
invocation (network fetch) for `k` occurs in the whole trace, and after the
first entry that invoked the producer every later call for `k` returns that
same successfully written value without invoking its producer. -/
theorem cache_lifetime_single_fetch (k : String) (ops : List Op) (st : Store)
    (hgood : ∀ p, Op.call k p ∈ ops → ∃ v, p = Except.ok v ∧ noUndefined v = true) :
    fetchCount k st ops ≤ 1 ∧ stableAfterFirst (traceFor k st ops) :=
  traceFor_stable k ops st hgood

/-- Witness for `cache_lifetime_single_fetch` at a concrete trace with a
restart between the two calls. -/
theorem cache_lifetime_single_fetch_witness :
    (∀ p, Op.call "k" p ∈
        [Op.call "k" (Except.ok JsVal.null), Op.restart, Op.call "k" (Except.ok JsVal.null)] →
      ∃ v, p = Except.ok v ∧ noUndefined v = true) ∧
      (fetchCount "k" []
          [Op.call "k" (Except.ok JsVal.null), Op.restart, Op.call "k" (Except.ok JsVal.null)] ≤ 1 ∧
        stableAfterFirst (traceFor "k" []
          [Op.call "k" (Except.ok JsVal.null), Op.restart,
            Op.call "k" (Except.ok JsVal.null)])) := by
  have hgood : ∀ p, Op.call "k" p ∈
      [Op.call "k" (Except.ok JsVal.null), Op.restart, Op.call "k" (Except.ok JsVal.null)] →
      ∃ v, p = Except.ok v ∧ noUndefined v = true := by
    intro p hp
    simp only [List.mem_cons, List.not_mem_nil, or_false] at hp
    rcases hp with h | h | h
    · injection h with _ h2
      exact ⟨JsVal.null, h2, rfl⟩
    · exact Op.noConfusion h
    · injection h with _ h2
      exact ⟨JsVal.null, h2, rfl⟩
  exact ⟨hgood, cache_lifetime_single_fetch "k"
    [Op.call "k" (Except.ok JsVal.null), Op.restart, Op.call "k" (Except.ok JsVal.null)] [] hgood⟩

end Netflyx
